import Mathlib

/-!
Verification of `perclearn/utils.py`.

The numeric arrays of the Python code (numpy `float64` ndarrays) are modelled
as `List (List ℝ)` in row-major layout; real numbers stand in for IEEE
doubles, so all algebraic identities hold exactly rather than up to rounding.
Fallible numpy operations (reshape size checks, broadcasting) are modelled
with `Except String`.  Randomness (`np.random.random`, `np.random.randint`)
is modelled by explicit parameters supplying the drawn values.
-/

namespace Perclearn

/-- A 2D numeric array in row-major layout (numpy ndarray of floats). -/
abbrev Mat := List (List ℝ)

/-- Entry access `m[i][j]`, with numpy's in-bounds reads modelled by `getD`
(out-of-range access only occurs outside the domains used by the theorems). -/
def entry (m : Mat) (i j : ℕ) : ℝ := (m.getD i []).getD j 0

/-- Well-formedness: `m` has `r` rows, each of length `c` (a numpy array of
shape `(r, c)`). -/
def wf (m : Mat) (r c : ℕ) : Prop := m.length = r ∧ ∀ row ∈ m, row.length = c

/-- Build an `r × c` matrix from an entry function. -/
def build (r c : ℕ) (f : ℕ → ℕ → ℝ) : Mat :=
  (List.range r).map (fun i => (List.range c).map (fun j => f i j))

/-- Row-major reshape of a flat list into `r` rows of `c` entries
(`np.reshape(l, (r, c))` on the domain where the sizes agree). -/
def unflatten (r c : ℕ) (l : List ℝ) : Mat :=
  (List.range r).map (fun i => (l.drop (i * c)).take c)

/-- Elementwise map over a 2D array. -/
def mapMat (f : ℝ → ℝ) (m : Mat) : Mat := m.map (fun row => row.map f)

/-- Elementwise combination of two same-shape 2D arrays. -/
def zipWith2D (f : ℝ → ℝ → ℝ) (a b : Mat) : Mat :=
  List.zipWith (fun ra rb => List.zipWith f ra rb) a b

/-- Minimum of a list of reals (`np.min`; the empty case never arises on the
domains of the theorems). -/
def listMin : List ℝ → ℝ
  | [] => 0
  | [x] => x
  | x :: y :: xs => min x (listMin (y :: xs))

/-- Maximum of a list of reals (`np.max`). -/
def listMax : List ℝ → ℝ
  | [] => 0
  | [x] => x
  | x :: y :: xs => max x (listMax (y :: xs))

/-! ### scale_2D

Python source (`scale_2D`):
```
w, h = data.shape
data = np.ndarray.flatten(data)
data += -(np.min(data))
data /= np.max(data) / (scale_range[1] - scale_range[0])
data += scale_range[0]
return np.reshape(data, (w, h))
```
-/

/-- The shift step `data += -(np.min(data))` applied to the flattened data. -/
def scale_2D_shift (l : List ℝ) : List ℝ := l.map (fun x => x + -(listMin l))

/-- The divisor of the in-place division step: `np.max(data) / (hi - lo)`,
where `data` is the already-shifted flat array.  No guard is applied before
dividing by this quantity. -/
noncomputable def scale_2D_divisor (l : List ℝ) (rg : ℝ × ℝ) : ℝ :=
  listMax (scale_2D_shift l) / (rg.2 - rg.1)

/-- The three in-place steps of `scale_2D` on the flattened copy of the data. -/
noncomputable def scale_2D_flat (l : List ℝ) (rg : ℝ × ℝ) : List ℝ :=
  ((scale_2D_shift l).map (fun x => x / scale_2D_divisor l rg)).map
    (fun x => x + rg.1)

/-- `scale_2D(data, scale_range)`: flatten (a fresh copy in numpy), shift the
minimum to 0, divide by `max / (hi - lo)`, add `lo`, reshape back to the
original `(w, h)`. -/
noncomputable def scale_2D (data : Mat) (rg : ℝ × ℝ) : Mat :=
  unflatten data.length ((data.headD []).length) (scale_2D_flat data.flatten rg)

/-! ### create_composition

Python source (`create_composition(input_image, background_image, x_offset=0,
y_offset=0, center=None, radius=0)`):
```
w, h = input_image.shape
if center is None:
    center = [int(w/2), int(h/2)]
if radius is None:
    radius = min(center[0], center[1], w-center[0], h-center[1])
Y, X = np.ogrid[:h, :w]
dist_from_center = np.sqrt((X - center[0])**2 + (Y-center[1])**2)
mask = dist_from_center <= radius
circle_image = np.ma.array(input_image, mask = ~mask)
out_image = np.ma.array(input_image, mask = mask).data
out_mask = np.ma.array(dist_from_center, mask = mask)
out_mask_full = out_mask.copy()
out_mask_full[out_mask<=radius] = radius
dist_from_center_rescaled = scale_2D(out_mask_full.data, scale_range=(0, 1))
background_offset = background_image[y_offset:y_offset+w, x_offset:x_offset+h]
background_fade = background_offset * dist_from_center_rescaled + out_image
new_input_image = background_fade + circle_image
background_image[y_offset:y_offset+w, x_offset:x_offset+h] = new_input_image
return background_image
```
Masked-array semantics used by the embedding:
  * `np.ma.array(a, mask=m).data` is the raw underlying array `a`; masking does
    not zero the data, so `out_image` is all of `input_image`.
  * `out_mask_full[out_mask<=radius] = radius` writes `radius` into the data at
    every position whose distance is `<= radius` (the comparison on the masked
    array compares the underlying data).
  * `background_fade + circle_image` is a masked binary operation: numpy
    computes `background_fade + circle_image.data` and then reverts the result
    to the first operand's data (`background_fade`) wherever `circle_image` is
    masked, i.e. at exterior positions.
  * assigning the resulting masked array into the `background_image` slice
    writes its underlying data buffer.
The embedding is faithful on the domain where the numpy shapes are consistent:
square `input_image` (`w = h`; otherwise `np.ma.array` rejects the transposed
mask) and an offset window inside the background. -/

/-- Default center `[int(w/2), int(h/2)]` when `center is None`. -/
def effCenter (w h : ℕ) (c : Option (ℤ × ℤ)) : ℤ × ℤ :=
  c.getD (((w / 2 : ℕ) : ℤ), ((h / 2 : ℕ) : ℤ))

/-- Effective radius: `min(center[0], center[1], w-center[0], h-center[1])`
when `radius is None`, otherwise the given radius. -/
def effRadius (w h : ℕ) (c : ℤ × ℤ) (r : Option ℝ) : ℝ :=
  match r with
  | some rr => rr
  | none => ((min (min c.1 c.2) (min ((w : ℤ) - c.1) ((h : ℤ) - c.2)) : ℤ) : ℝ)

/-- The declared default of the `radius` parameter in the source signature is
the literal `0`, not `None`. -/
def create_composition_radius_default : Option ℝ := some 0

/-- Distance from the center at grid position `(i, j)` of the `(h, w)` ogrid:
`sqrt((X - center[0])**2 + (Y - center[1])**2)` with `X = j`, `Y = i`. -/
noncomputable def dist_from_center (c : ℤ × ℤ) (i j : ℕ) : ℝ :=
  Real.sqrt (((((j : ℤ) - c.1 : ℤ) : ℝ)) ^ 2 + ((((i : ℤ) - c.2 : ℤ) : ℝ)) ^ 2)

/-- `out_mask_full.data`: the distance grid with every entry at distance
`<= radius` overwritten by `radius` (shape `(h, w)`). -/
noncomputable def out_mask_full (w h : ℕ) (c : ℤ × ℤ) (r : ℝ) : Mat :=
  build h w (fun i j =>
    if dist_from_center c i j ≤ r then r else dist_from_center c i j)

/-- The sub-region `background_image[y_offset:y_offset+w, x_offset:x_offset+h]`
(numpy slicing truncates out-of-range bounds, as `drop`/`take` do). -/
def background_offset (bg : Mat) (x_off y_off w h : ℕ) : Mat :=
  ((bg.drop y_off).take w).map (fun row => (row.drop x_off).take h)

/-- The data of `new_input_image`, the patch written back into the background:
`background_fade = background_offset * dist_from_center_rescaled + out_image`
with `out_image = input_image` (raw masked-array data), then the masked
addition `background_fade + circle_image`, whose data adds `input_image` once
more at interior positions and reverts to `background_fade` elsewhere. -/
noncomputable def composedPatch (input bg : Mat) (x_off y_off : ℕ)
    (copt : Option (ℤ × ℤ)) (ropt : Option ℝ) : Mat :=
  let w := input.length
  let h := (input.headD []).length
  let c := effCenter w h copt
  let r := effRadius w h c ropt
  let rescaled := scale_2D (out_mask_full w h c r) (0, 1)
  let bgOff := background_offset bg x_off y_off w h
  build w h (fun i j =>
    if dist_from_center c i j ≤ r then
      (entry bgOff i j * entry rescaled i j + entry input i j) + entry input i j
    else
      entry bgOff i j * entry rescaled i j + entry input i j)

/-- `create_composition`: the background with the window
`[y_offset:y_offset+w, x_offset:x_offset+h]` overwritten by the composed
patch; every entry outside the window keeps its value. -/
noncomputable def create_composition (input bg : Mat) (x_off y_off : ℕ)
    (copt : Option (ℤ × ℤ)) (ropt : Option ℝ) : Mat :=
  let w := input.length
  let h := (input.headD []).length
  let patch := composedPatch input bg x_off y_off copt ropt
  build bg.length ((bg.headD []).length) (fun rr cc =>
    if y_off ≤ rr ∧ rr < y_off + w ∧ x_off ≤ cc ∧ cc < x_off + h then
      entry patch (rr - y_off) (cc - x_off)
    else entry bg rr cc)

/-- The heap-level view of `create_composition`: the background reference is
updated in place and the function returns that same reference (numpy mutates
`background_image` and returns it, not a copy). -/
noncomputable def create_composition_heap (heap : List Mat) (inputRef bgRef : ℕ)
    (x_off y_off : ℕ) (copt : Option (ℤ × ℤ)) (ropt : Option ℝ) :
    List Mat × ℕ :=
  (heap.set bgRef
    (create_composition (heap.getD inputRef []) (heap.getD bgRef [])
      x_off y_off copt ropt), bgRef)

/-! ### create_2D_noise

Python source (`create_2D_noise(dim_array=(56,56), beta=-1)`):
```
list_1 = list(range(0, int(np.floor(dim_array[0] / 2)) + 1))
list_2 = list(range(-int(np.ceil(dim_array[0] / 2) - 1), 0, 1))
u = np.concatenate((list_1, list_2)) / dim_array[0]
u = np.reshape(repmat(u,1,dim_array[1]), dim_array).T
list_1 = list(range(0, int(np.floor(dim_array[1] / 2)) + 1))
list_2 = list(range(-int(np.ceil(dim_array[1] / 2) - 1), 0, 1))
v = np.concatenate((list_1, list_2)) / dim_array[1]
v = np.reshape(repmat(v,dim_array[0],1), dim_array)
S_f = np.power(np.power(u,2) + np.power(v,2), (beta/2))
S_f[np.isinf(S_f)] = 0
phi = np.random.random(dim_array)
x = np.fft.ifft2(np.power(S_f, 0.5) * (np.cos(2*np.pi*phi) + 1j*np.sin(2*np.pi*phi)))
return np.real(x)
```
Note the asymmetry: `u` is reshaped to `dim_array` and then transposed (shape
`(d1, d0)`), while `v` is not transposed (shape `(d0, d1)`); for non-square
`dim_array` the elementwise sum `u**2 + v**2` is a numpy broadcast error.
The phase field `phi` is modelled as an explicit argument. -/

/-- `np.reshape(l, (r, c))`: errors unless the total size matches. -/
def reshapeE (r c : ℕ) (l : List ℝ) : Except String Mat :=
  if l.length = r * c then Except.ok (unflatten r c l)
  else Except.error "ValueError: cannot reshape array"

/-- Transpose of a well-formed 2D array (`.T`). -/
def transposeMat (m : Mat) : Mat :=
  build ((m.headD []).length) (m.length) (fun i j => entry m j i)

/-- Elementwise addition with numpy's 2D broadcasting rules: each dimension
must agree or be 1; on success an axis of length 1 is repeated. -/
def broadcastAdd (a b : Mat) : Except String Mat :=
  let r1 := a.length
  let c1 := (a.headD []).length
  let r2 := b.length
  let c2 := (b.headD []).length
  if (r1 = r2 ∨ r1 = 1 ∨ r2 = 1) ∧ (c1 = c2 ∨ c1 = 1 ∨ c2 = 1) then
    Except.ok (build (max r1 r2) (max c1 c2) (fun i j =>
      entry a (i % r1) (j % c1) + entry b (i % r2) (j % c2)))
  else Except.error "ValueError: operands could not be broadcast together"

/-- The FFT-ordered frequency axis for one dimension of length `d`:
`[0, 1, ..., floor(d/2)] ++ [-(ceil(d/2)-1), ..., -1]`, each divided by `d`
(`np.concatenate((list_1, list_2)) / dim_array[k]`; the division by `d` is
applied inside each half, which is elementwise identical to dividing the
concatenation). -/
noncomputable def freqAxis (d : ℕ) : List ℝ :=
  ((List.range (d / 2 + 1)).map (fun (k : ℕ) => (k : ℝ) / (d : ℝ))) ++
    ((List.range ((d + 1) / 2 - 1)).map
      (fun (k : ℕ) => (((k : ℤ) + 1 - (((d + 1) / 2 : ℕ) : ℤ) : ℤ) : ℝ) / (d : ℝ)))

/-- Inverse 2D discrete Fourier transform with numpy's `1/(n*m)`
normalization (the external FFT primitive, written as its defining sum). -/
noncomputable def ifft2 (x : List (List ℂ)) : List (List ℂ) :=
  let n := x.length
  let mm := (x.headD []).length
  (List.range n).map (fun a => (List.range mm).map (fun b =>
    (1 / ((n : ℂ) * (mm : ℂ))) *
      Finset.sum (Finset.range n) (fun j => Finset.sum (Finset.range mm)
        (fun k => ((x.getD j []).getD k 0) *
          Complex.exp (2 * (Real.pi : ℂ) * Complex.I *
            (((a * j : ℕ) : ℂ) / (n : ℂ) + ((b * k : ℕ) : ℂ) / (mm : ℂ)))))))

/-- `create_2D_noise(dim_array, beta)` with the random phase draw passed in as
`phi`.  `S_f[np.isinf(S_f)] = 0` zeroes exactly the entries where the float
power `(u²+v²)^(beta/2)` is infinite, i.e. zero base with negative exponent. -/
noncomputable def create_2D_noise (dim : ℕ × ℕ) (β : ℝ) (phi : Mat) :
    Except String Mat := do
  let d0 := dim.1
  let d1 := dim.2
  let u0 ← reshapeE d0 d1 ((List.replicate d1 (freqAxis d0)).flatten)
  let u := transposeMat u0
  let v ← reshapeE d0 d1 ((List.replicate d0 (freqAxis d1)).flatten)
  let s ← broadcastAdd (mapMat (fun x => x ^ (2 : ℕ)) u)
    (mapMat (fun x => x ^ (2 : ℕ)) v)
  let S_f := mapMat (fun x => if x = 0 ∧ β / 2 < 0 then 0 else x ^ (β / 2)) s
  let spec : List (List ℂ) := List.zipWith (fun rs rp => List.zipWith
      (fun sv pv => ((Real.sqrt sv : ℝ) : ℂ) *
        (((Real.cos (2 * Real.pi * pv) : ℝ) : ℂ) +
          Complex.I * ((Real.sin (2 * Real.pi * pv) : ℝ) : ℂ))) rs rp)
    S_f phi
  pure ((ifft2 spec).map (fun row => row.map Complex.re))

/-! ### rotate_image and create_new_dataset

Python source:
```
def create_new_dataset(dataset, offsets=[[0,0]], rotate=False, degree=None):
    m, n = dataset.shape
    im_x = int(np.sqrt(n))
    num_offsets = len(offsets)
    new_dataset = np.zeros((m, n*4))
    for i in range(m):
        image = np.reshape(dataset[i,:], (im_x, im_x))
        if rotate is not False:
            image = rotate_image(image, rot=degree)
        noise_bg = scale_2D(create_2D_noise())
        rand_offset = np.random.randint(0, num_offsets)
        result = create_composition(image, noise_bg,
                       x_offset=offsets[rand_offset][0],
                       y_offset=offsets[rand_offset][1],
                       center=None, radius=None)
        new_dataset[i,:] = np.ndarray.flatten(result)
    return new_dataset

def rotate_image(image, angle=None):
    if angle is None:
        angle = np.random.randint(0, 360)
    return rotate(image, angle=angle)
```
The external rotation primitive (`skimage.transform.rotate`) is modelled by a
parameter `rotFn`, the random draws by parameters (`randAngle`, `phis`,
`picks`).  The call `rotate_image(image, rot=degree)` uses the keyword `rot`,
which is not among `rotate_image`'s parameters `(image, angle)`; Python
raises `TypeError` at the call, which the embedding models by checking the
keyword against the parameter list. -/

/-- `rotate_image(image, angle)`: draws a random angle when `angle is None`,
then delegates to the rotation primitive, passing the angle through
unchanged (no scaling by 90). -/
def rotate_image (rotFn : Mat → ℝ → Mat) (randAngle : ℝ) (image : Mat)
    (angle : Option ℝ) : Mat :=
  match angle with
  | none => rotFn image randAngle
  | some a => rotFn image a

/-- The parameter names of `rotate_image`, per its `def` line. -/
def rotate_image_params : List String := ["image", "angle"]

/-- The keyword used at the call site `rotate_image(image, rot=degree)`. -/
def create_new_dataset_rotate_kw : String := "rot"

/-- The composition call of `create_new_dataset`: it passes `center=None,
radius=None`, so the computed default radius is used. -/
noncomputable def cnd_compose (image noise_bg : Mat) (off : ℕ × ℕ) : Mat :=
  create_composition image noise_bg off.1 off.2 none none

/-- The write-back `new_dataset[i,:] = np.ndarray.flatten(result)`: numpy
accepts the assignment only when the flattened frame's length equals the
output row length `n*4`, and raises a broadcast `ValueError` otherwise. -/
noncomputable def cnd_store (n : ℕ) (result : Mat) : Except String (List ℝ) :=
  if result.flatten.length = n * 4 then Except.ok result.flatten
  else Except.error "ValueError: could not broadcast flattened frame into output row"

/-- The tail of one loop iteration of `create_new_dataset`, after the
optional rotation: draw the noise background (`create_2D_noise()` with its
default `(56,56)` shape and `beta=-1`), rescale it to `(0,255)`, composite at
the randomly picked offset, and store the flattened frame. -/
noncomputable def cnd_row_rest (phi : Mat) (pick : ℕ) (n : ℕ) (image : Mat)
    (offsets : List (ℕ × ℕ)) : Except String (List ℝ) :=
  (create_2D_noise (56, 56) (-1) phi).bind (fun noise =>
    cnd_store n (cnd_compose image (scale_2D noise (0, 255))
      (offsets.getD pick (0, 0))))

/-- The body of one iteration of the loop of `create_new_dataset`: reshape
the row to a square image, optionally rotate (the call
`rotate_image(image, rot=degree)` raises `TypeError` since the keyword `rot`
is not a parameter of `rotate_image`), then continue with `cnd_row_rest`. -/
noncomputable def cnd_row (rotFn : Mat → ℝ → Mat) (randAngle : ℝ) (phi : Mat)
    (pick : ℕ) (n im_x : ℕ) (offsets : List (ℕ × ℕ)) (rotate : Bool)
    (degree : Option ℤ) (row : List ℝ) : Except String (List ℝ) :=
  if row.length = im_x * im_x then
    (if rotate then
      (if create_new_dataset_rotate_kw ∈ rotate_image_params then
        cnd_row_rest phi pick n
          (rotate_image rotFn randAngle (unflatten im_x im_x row)
            (degree.map (fun z => ((z : ℤ) : ℝ)))) offsets
      else Except.error "TypeError: rotate_image() got an unexpected keyword argument rot")
    else cnd_row_rest phi pick n (unflatten im_x im_x row) offsets)
  else Except.error "ValueError: cannot reshape row"

/-- Sequential loop over the dataset rows, aborting at the first error (a
Python exception propagates out of the loop). -/
def cndLoop (f : ℕ → List ℝ → Except String (List ℝ)) :
    ℕ → List (List ℝ) → Except String (List (List ℝ))
  | _, [] => Except.ok []
  | i, row :: rest => do
    let r ← f i row
    let rs ← cndLoop f (i + 1) rest
    pure (r :: rs)

/-- `create_new_dataset(dataset, offsets, rotate, degree)` with the random
sources passed in explicitly. -/
noncomputable def create_new_dataset (rotFn : Mat → ℝ → Mat)
    (randAngles : ℕ → ℝ) (phis : ℕ → Mat) (picks : ℕ → ℕ) (dataset : Mat)
    (offsets : List (ℕ × ℕ)) (rotate : Bool) (degree : Option ℤ) :
    Except String Mat :=
  let n := (dataset.headD []).length
  let im_x := Nat.sqrt n
  cndLoop (fun i row => cnd_row rotFn (randAngles i) (phis i) (picks i)
    n im_x offsets rotate degree row) 0 dataset

/-- Heap-level view of `scale_2D`, with numpy arrays as buffers in a store:
`np.ndarray.flatten(data)` allocates a fresh copy at a new reference, and the
three in-place operators (`+=`, `/=`, `+=`) mutate only that copy; the final
`np.reshape` returns a view of the same buffer.  The input reference is never
written. -/
noncomputable def scale_2D_heap (heap : List (List ℝ)) (r : ℕ) (rg : ℝ × ℝ) :
    List (List ℝ) × ℕ :=
  let rNew := heap.length
  let h1 := heap ++ [heap.getD r []]
  let h2 := h1.set rNew ((h1.getD rNew []).map
    (fun x => x + -(listMin (h1.getD rNew []))))
  let h3 := h2.set rNew ((h2.getD rNew []).map
    (fun x => x / (listMax (h2.getD rNew []) / (rg.2 - rg.1))))
  let h4 := h3.set rNew ((h3.getD rNew []).map (fun x => x + rg.1))
  (h4, rNew)

theorem listMin_cons (x : ℝ) (l : List ℝ) (h : l ≠ []) :
    listMin (x :: l) = min x (listMin l) := by
  cases l with
  | nil => exact absurd rfl h
  | cons y ys => rfl

theorem listMax_cons (x : ℝ) (l : List ℝ) (h : l ≠ []) :
    listMax (x :: l) = max x (listMax l) := by
  cases l with
  | nil => exact absurd rfl h
  | cons y ys => rfl

theorem listMin_le_of_mem {x : ℝ} {l : List ℝ} (hx : x ∈ l) : listMin l ≤ x := by
  induction l with
  | nil => cases hx
  | cons y ys ih =>
    cases ys with
    | nil =>
      rcases List.mem_singleton.mp hx with rfl
      exact le_refl _
    | cons z zs =>
      rw [listMin_cons y (z :: zs) (by simp)]
      rcases List.mem_cons.mp hx with rfl | hmem
      · exact min_le_left _ _
      · exact le_trans (min_le_right _ _) (ih hmem)

theorem le_listMax_of_mem {x : ℝ} {l : List ℝ} (hx : x ∈ l) : x ≤ listMax l := by
  induction l with
  | nil => cases hx
  | cons y ys ih =>
    cases ys with
    | nil =>
      rcases List.mem_singleton.mp hx with rfl
      exact le_refl _
    | cons z zs =>
      rw [listMax_cons y (z :: zs) (by simp)]
      rcases List.mem_cons.mp hx with rfl | hmem
      · exact le_max_left _ _
      · exact le_trans (ih hmem) (le_max_right _ _)

theorem listMin_mem {l : List ℝ} (h : l ≠ []) : listMin l ∈ l := by
  induction l with
  | nil => exact absurd rfl h
  | cons y ys ih =>
    cases ys with
    | nil => simp [listMin]
    | cons z zs =>
      rw [listMin_cons y (z :: zs) (by simp)]
      rcases min_choice y (listMin (z :: zs)) with hc | hc
      · rw [hc]; exact List.mem_cons_self _ _
      · rw [hc]; exact List.mem_cons_of_mem _ (ih (by simp))

theorem listMax_mem {l : List ℝ} (h : l ≠ []) : listMax l ∈ l := by
  induction l with
  | nil => exact absurd rfl h
  | cons y ys ih =>
    cases ys with
    | nil => simp [listMax]
    | cons z zs =>
      rw [listMax_cons y (z :: zs) (by simp)]
      rcases max_choice y (listMax (z :: zs)) with hc | hc
      · rw [hc]; exact List.mem_cons_self _ _
      · rw [hc]; exact List.mem_cons_of_mem _ (ih (by simp))

theorem le_listMin {c : ℝ} {l : List ℝ} (h : l ≠ []) (hall : ∀ x ∈ l, c ≤ x) :
    c ≤ listMin l := hall _ (listMin_mem h)

theorem listMax_le {c : ℝ} {l : List ℝ} (h : l ≠ []) (hall : ∀ x ∈ l, x ≤ c) :
    listMax l ≤ c := hall _ (listMax_mem h)

theorem listMin_eq_of {c : ℝ} {l : List ℝ} (hmem : c ∈ l) (hall : ∀ x ∈ l, c ≤ x) :
    listMin l = c :=
  le_antisymm (listMin_le_of_mem hmem) (le_listMin (List.ne_nil_of_mem hmem) hall)

theorem listMax_eq_of {c : ℝ} {l : List ℝ} (hmem : c ∈ l) (hall : ∀ x ∈ l, x ≤ c) :
    listMax l = c :=
  le_antisymm (listMax_le (List.ne_nil_of_mem hmem) hall) (le_listMax_of_mem hmem)

/-- `listMin` commutes with any map that distributes over binary `min`. -/
theorem listMin_map {g : ℝ → ℝ} (hg : ∀ a b, g (min a b) = min (g a) (g b))
    (l : List ℝ) (h : l ≠ []) : listMin (l.map g) = g (listMin l) := by
  induction l with
  | nil => exact absurd rfl h
  | cons y ys ih =>
    cases ys with
    | nil => simp [listMin]
    | cons z zs =>
      have hne : (z :: zs) ≠ ([] : List ℝ) := by simp
      have hmapne : ((z :: zs).map g) ≠ ([] : List ℝ) := by simp
      rw [List.map_cons, listMin_cons _ _ hmapne, ih hne,
        listMin_cons y (z :: zs) hne, hg]

/-- `listMax` commutes with any map that distributes over binary `max`. -/
theorem listMax_map {g : ℝ → ℝ} (hg : ∀ a b, g (max a b) = max (g a) (g b))
    (l : List ℝ) (h : l ≠ []) : listMax (l.map g) = g (listMax l) := by
  induction l with
  | nil => exact absurd rfl h
  | cons y ys ih =>
    cases ys with
    | nil => simp [listMax]
    | cons z zs =>
      have hne : (z :: zs) ≠ ([] : List ℝ) := by simp
      have hmapne : ((z :: zs).map g) ≠ ([] : List ℝ) := by simp
      rw [List.map_cons, listMax_cons _ _ hmapne, ih hne,
        listMax_cons y (z :: zs) hne, hg]

theorem wf_build (r c : ℕ) (f : ℕ → ℕ → ℝ) : wf (build r c f) r c := by
  constructor
  · simp [build]
  · intro row hrow
    simp only [build, List.mem_map] at hrow
    rcases hrow with ⟨i, _, rfl⟩
    simp

theorem entry_build {r c : ℕ} (f : ℕ → ℕ → ℝ) {i j : ℕ} (hi : i < r) (hj : j < c) :
    entry (build r c f) i j = f i j := by
  simp [entry, build, List.getD_eq_getElem?_getD, List.getElem?_map,
    List.getElem?_range, hi, hj]

theorem mem_build {x : ℝ} {r c : ℕ} {f : ℕ → ℕ → ℝ} :
    x ∈ (build r c f).flatten ↔ ∃ i < r, ∃ j < c, x = f i j := by
  simp only [build, List.mem_flatten, List.mem_map, List.mem_range]
  constructor
  · rintro ⟨row, ⟨i, hi, rfl⟩, hx⟩
    rcases List.mem_map.mp hx with ⟨j, hj, rfl⟩
    exact ⟨i, hi, j, List.mem_range.mp hj, rfl⟩
  · rintro ⟨i, hi, j, hj, rfl⟩
    exact ⟨(List.range c).map (fun j => f i j), ⟨i, hi, rfl⟩,
      List.mem_map.mpr ⟨j, List.mem_range.mpr hj, rfl⟩⟩

theorem flatten_length_of_rows {m : Mat} {c : ℕ} (h : ∀ row ∈ m, row.length = c) :
    m.flatten.length = m.length * c := by
  induction m with
  | nil => simp
  | cons row rest ih =>
    have hrow : row.length = c := h row (List.mem_cons_self _ _)
    have hrest : ∀ r ∈ rest, r.length = c := fun r hr => h r (List.mem_cons_of_mem _ hr)
    simp [List.flatten_cons, hrow, ih hrest, Nat.succ_mul, Nat.add_comm]

theorem flatten_getD {m : Mat} {c i j : ℕ} (h : ∀ row ∈ m, row.length = c)
    (hi : i < m.length) (hj : j < c) :
    m.flatten.getD (i * c + j) 0 = entry m i j := by
  induction m generalizing i with
  | nil => simp at hi
  | cons row rest ih =>
    have hrow : row.length = c := h row (List.mem_cons_self _ _)
    have hrest : ∀ r ∈ rest, r.length = c := fun r hr => h r (List.mem_cons_of_mem _ hr)
    cases i with
    | zero =>
      have hjlt : j < row.length := hrow ▸ hj
      simp only [List.flatten_cons, Nat.zero_mul, Nat.zero_add, entry]
      rw [List.getD_eq_getElem?_getD, List.getElem?_append_left hjlt,
        ← List.getD_eq_getElem?_getD]
      simp [List.getD]
    | succ i =>
      have hi' : i < rest.length := by simpa using hi
      have hidx : (i + 1) * c + j = row.length + (i * c + j) := by
        rw [hrow]; ring
      simp only [List.flatten_cons, entry]
      rw [List.getD_eq_getElem?_getD, hidx, List.getElem?_append_right (by omega),
        Nat.add_sub_cancel_left, ← List.getD_eq_getElem?_getD]
      exact ih hrest hi'

theorem unflatten_row {r c : ℕ} {l : List ℝ} {i : ℕ} (hi : i < r) :
    (unflatten r c l).getD i [] = (l.drop (i * c)).take c := by
  simp [unflatten, List.getD_eq_getElem?_getD, List.getElem?_map, List.getElem?_range, hi]

theorem entry_unflatten {r c : ℕ} {l : List ℝ} {i j : ℕ} (hi : i < r) (hj : j < c) :
    entry (unflatten r c l) i j = l.getD (i * c + j) 0 := by
  rw [entry, unflatten_row hi, List.getD_eq_getElem?_getD,
    List.getElem?_take_of_lt hj, List.getElem?_drop,
    ← List.getD_eq_getElem?_getD]

theorem wf_unflatten {r c : ℕ} {l : List ℝ} (h : l.length = r * c) :
    wf (unflatten r c l) r c := by
  constructor
  · simp [unflatten]
  · intro row hrow
    simp only [unflatten, List.mem_map, List.mem_range] at hrow
    rcases hrow with ⟨i, hi, rfl⟩
    have : i * c + c ≤ r * c := by
      calc i * c + c = (i + 1) * c := by ring
      _ ≤ r * c := Nat.mul_le_mul_right _ hi
    simp only [List.length_take, List.length_drop, h]
    omega

theorem flatten_unflatten_take (r c : ℕ) (l : List ℝ) :
    (unflatten r c l).flatten = l.take (r * c) := by
  induction r with
  | zero => simp [unflatten]
  | succ n ih =>
    have : unflatten (n + 1) c l = unflatten n c l ++ [(l.drop (n * c)).take c] := by
      simp [unflatten, List.range_succ]
    rw [this, List.flatten_append, ih]
    simp [List.flatten, Nat.succ_mul, List.take_add]

theorem flatten_unflatten {r c : ℕ} {l : List ℝ} (h : l.length = r * c) :
    (unflatten r c l).flatten = l := by
  rw [flatten_unflatten_take, ← h, List.take_length]

theorem getD_map_of_lt {g : ℝ → ℝ} {l : List ℝ} {k : ℕ} (hk : k < l.length) :
    (l.map g).getD k 0 = g (l.getD k 0) := by
  rw [List.getD_eq_getElem?_getD, List.getElem?_map, List.getD_eq_getElem?_getD,
    List.getElem?_eq_getElem hk]
  simp

theorem scale_2D_flat_length (l : List ℝ) (rg : ℝ × ℝ) :
    (scale_2D_flat l rg).length = l.length := by
  simp [scale_2D_flat, scale_2D_shift]

theorem wf_scale_2D {data : Mat} {r c : ℕ} (h : wf data r c) (hr : 0 < r)
    (rg : ℝ × ℝ) : wf (scale_2D data rg) r c := by
  rcases h with ⟨hlen, hrows⟩
  have hne : data ≠ [] := by
    intro hnil; rw [hnil] at hlen; simp at hlen; omega
  have hhead : (data.headD []).length = c := by
    cases data with
    | nil => exact absurd rfl hne
    | cons row rest => exact hrows row (List.mem_cons_self _ _)
  have hflat : data.flatten.length = r * c := by
    rw [flatten_length_of_rows hrows, hlen]
  rw [scale_2D, hlen, hhead]
  exact wf_unflatten (by rw [scale_2D_flat_length, hflat])

theorem entry_scale_2D {data : Mat} {r c i j : ℕ} (h : wf data r c)
    (hi : i < r) (hj : j < c) (rg : ℝ × ℝ) :
    entry (scale_2D data rg) i j =
      (entry data i j - listMin data.flatten) / scale_2D_divisor data.flatten rg
        + rg.1 := by
  rcases h with ⟨hlen, hrows⟩
  have hhead : (data.headD []).length = c := by
    cases data with
    | nil => simp at hlen; omega
    | cons row rest => exact hrows row (List.mem_cons_self _ _)
  have hflat : data.flatten.length = r * c := by
    rw [flatten_length_of_rows hrows, hlen]
  have hidx : i * c + j < data.flatten.length := by
    rw [hflat]
    calc i * c + j < i * c + c := by omega
    _ = (i + 1) * c := by ring
    _ ≤ r * c := Nat.mul_le_mul_right _ hi
  have hidx2 : i * c + j < (scale_2D_shift data.flatten).length := by
    rw [scale_2D_shift, List.length_map]; exact hidx
  have hidx3 : i * c + j <
      ((scale_2D_shift data.flatten).map
        (fun x => x / scale_2D_divisor data.flatten rg)).length := by
    rw [List.length_map]; exact hidx2
  rw [scale_2D, hlen, hhead, entry_unflatten hi hj, scale_2D_flat,
    getD_map_of_lt hidx3, getD_map_of_lt hidx2]
  rw [scale_2D_shift, getD_map_of_lt hidx,
    flatten_getD hrows (by rw [hlen]; exact hi) hj]
  ring_nf

theorem getD_map_rows {f : List ℝ → List ℝ} (hf : f [] = []) (X : Mat) (i : ℕ) :
    (X.map f).getD i [] = f (X.getD i []) := by
  rw [List.getD_eq_getElem?_getD (X.map f) i [], List.getElem?_map,
    List.getD_eq_getElem?_getD X i []]
  cases X[i]? with
  | none => simpa using hf.symm
  | some row => rfl

theorem getD_take_drop {α : Type} {l : List α} {n i : ℕ} {d : α} (hi : i < n)
    (y : ℕ) : ((l.drop y).take n).getD i d = l.getD (y + i) d := by
  rw [List.getD_eq_getElem?_getD ((l.drop y).take n) i d,
    List.getElem?_take_of_lt hi, List.getElem?_drop,
    List.getD_eq_getElem?_getD l (y + i) d]

theorem entry_background_offset {bg : Mat} {x_off y_off w h i j : ℕ}
    (hi : i < w) (hj : j < h) :
    entry (background_offset bg x_off y_off w h) i j
      = entry bg (y_off + i) (x_off + j) := by
  unfold entry background_offset
  rw [getD_map_rows (by simp) _ i, getD_take_drop hi, getD_take_drop hj]

/-- Every entry of `out_mask_full` is at least the radius. -/
theorem out_mask_full_lower {w h : ℕ} {c : ℤ × ℤ} {r : ℝ} :
    ∀ x ∈ (out_mask_full w h c r).flatten, r ≤ x := by
  intro x hx
  rcases mem_build.mp hx with ⟨i, _, j, _, rfl⟩
  by_cases hd : dist_from_center c i j ≤ r
  · rw [if_pos hd]
  · rw [if_neg hd]
    exact le_of_lt (lt_of_not_le hd)

/-- If some grid cell lies at distance `<= radius`, the minimum of
`out_mask_full` is exactly the radius. -/
theorem out_mask_full_min {w h : ℕ} {c : ℤ × ℤ} {r : ℝ} {i0 j0 : ℕ}
    (hi0 : i0 < h) (hj0 : j0 < w) (hd0 : dist_from_center c i0 j0 ≤ r) :
    listMin (out_mask_full w h c r).flatten = r := by
  apply listMin_eq_of
  · exact mem_build.mpr ⟨i0, hi0, j0, hj0, by rw [if_pos hd0]⟩
  · exact out_mask_full_lower

/-- At an interior cell the rescaled fade field is exactly zero: the cell's
plateau value equals the minimum of `out_mask_full`, and the shifted value `0`
divides to `0` whatever the divisor is. -/
theorem rescaled_interior_zero {w h : ℕ} {c : ℤ × ℤ} {r : ℝ} {i j : ℕ}
    (hi : i < h) (hj : j < w) (hd : dist_from_center c i j ≤ r) :
    entry (scale_2D (out_mask_full w h c r) (0, 1)) i j = 0 := by
  have hwf : wf (out_mask_full w h c r) h w := by
    unfold out_mask_full; exact wf_build h w _
  have hentry : entry (out_mask_full w h c r) i j = r := by
    unfold out_mask_full; rw [entry_build _ hi hj, if_pos hd]
  rw [entry_scale_2D hwf hi hj, out_mask_full_min hi hj hd, hentry]
  simp

/-- Entries of `create_composition` inside the offset window come from the
composed patch. -/
theorem create_composition_window {input bg : Mat} {x_off y_off : ℕ}
    {copt : Option (ℤ × ℤ)} {ropt : Option ℝ} {i j : ℕ}
    (hi : i < input.length) (hj : j < (input.headD []).length)
    (hrow : y_off + input.length ≤ bg.length)
    (hcol : x_off + (input.headD []).length ≤ (bg.headD []).length) :
    entry (create_composition input bg x_off y_off copt ropt)
        (y_off + i) (x_off + j)
      = entry (composedPatch input bg x_off y_off copt ropt) i j := by
  unfold create_composition
  rw [entry_build _ (by omega) (by omega), if_pos (by omega)]
  simp

/-- Entries of `create_composition` outside the offset window are unchanged
from the background. -/
theorem create_composition_outside {input bg : Mat} {x_off y_off : ℕ}
    {copt : Option (ℤ × ℤ)} {ropt : Option ℝ} {rr cc : ℕ}
    (hrr : rr < bg.length) (hcc : cc < (bg.headD []).length)
    (hout : ¬(y_off ≤ rr ∧ rr < y_off + input.length ∧ x_off ≤ cc ∧
      cc < x_off + (input.headD []).length)) :
    entry (create_composition input bg x_off y_off copt ropt) rr cc
      = entry bg rr cc := by
  unfold create_composition
  rw [entry_build _ hrr hcc, if_neg hout]

/-- Key behavioural lemma: at a pixel strictly inside the disk, the composed
frame holds twice the input pixel.  The fade weight is zero there (no
background contribution), but `out_image` is the raw input data rather than an
exterior-only view, so the input is added once by `background_fade` and once
more by `circle_image`. -/
theorem interior_pixel_doubled {input bg : Mat} {x_off y_off : ℕ}
    {c : ℤ × ℤ} {r : ℝ} {i j : ℕ}
    (hsq : (input.headD []).length = input.length)
    (hi : i < input.length) (hj : j < input.length)
    (hrow : y_off + input.length ≤ bg.length)
    (hcol : x_off + input.length ≤ (bg.headD []).length)
    (hd : dist_from_center c i j < r) :
    entry (create_composition input bg x_off y_off (some c) (some r))
        (y_off + i) (x_off + j)
      = 2 * entry input i j := by
  rw [create_composition_window hi (hsq ▸ hj) hrow (hsq ▸ hcol)]
  unfold composedPatch
  simp only [effCenter, Option.getD_some, effRadius, hsq]
  rw [entry_build _ hi hj, if_pos (le_of_lt hd),
    rescaled_interior_zero hi hj (le_of_lt hd)]
  ring

theorem getD_append_lt {α : Type} {l : List α} {k : ℕ} (hk : k < l.length)
    (a : α) (d : α) : (l ++ [a]).getD k d = l.getD k d := by
  rw [List.getD_eq_getElem?_getD (l ++ [a]) k d, List.getElem?_append_left hk,
    List.getD_eq_getElem?_getD l k d]

theorem getD_append_len {α : Type} (l : List α) (a : α) (d : α) :
    (l ++ [a]).getD l.length d = a := by
  rw [List.getD_eq_getElem?_getD, List.getElem?_append_right (le_refl _)]
  simp

theorem getD_set_ne {α : Type} {l : List α} {i k : ℕ} (h : k ≠ i) (a : α)
    (d : α) : (l.set i a).getD k d = l.getD k d := by
  rw [List.getD_eq_getElem?_getD (l.set i a) k d,
    List.getElem?_set_ne (by omega), List.getD_eq_getElem?_getD l k d]

theorem getD_set_self {α : Type} {l : List α} {i : ℕ} (hi : i < l.length)
    (a : α) (d : α) : (l.set i a).getD i d = a := by
  rw [List.getD_eq_getElem?_getD, List.getElem?_set_self (by omega)]
  rfl

theorem listMin_shift {l : List ℝ} (h : l ≠ []) :
    listMin (scale_2D_shift l) = 0 := by
  unfold scale_2D_shift
  rw [listMin_map (fun a b => (min_add_add_right a b _).symm) l h]
  ring

theorem listMax_shift {l : List ℝ} (h : l ≠ []) :
    listMax (scale_2D_shift l) = listMax l - listMin l := by
  unfold scale_2D_shift
  rw [listMax_map (fun a b => (max_add_add_right a b _).symm) l h]
  ring

theorem listMin_lt_listMax {l : List ℝ}
    (hnc : ∃ x ∈ l, ∃ y ∈ l, x ≠ y) : listMin l < listMax l := by
  rcases hnc with ⟨x, hx, y, hy, hxy⟩
  by_contra hle
  push_neg at hle
  have hx' : x = listMin l :=
    le_antisymm (le_trans (le_listMax_of_mem hx) hle) (listMin_le_of_mem hx)
  have hy' : y = listMin l :=
    le_antisymm (le_trans (le_listMax_of_mem hy) hle) (listMin_le_of_mem hy)
  exact hxy (hx'.trans hy'.symm)

/-- Full characterization of `scale_2D_flat` on a non-constant list: the three
steps amount to the strictly monotone affine map sending `[min, max]` onto
`[lo, hi]`. -/
theorem scale_2D_flat_minmax {l : List ℝ} {lo hi : ℝ}
    (hnc : ∃ x ∈ l, ∃ y ∈ l, x ≠ y) (hlt : lo < hi) :
    listMin (scale_2D_flat l (lo, hi)) = lo ∧
    listMax (scale_2D_flat l (lo, hi)) = hi := by
  have hne : l ≠ [] := by
    rcases hnc with ⟨x, hx, _⟩
    exact List.ne_nil_of_mem hx
  have hmM : listMin l < listMax l := listMin_lt_listMax hnc
  have hdpos : 0 < scale_2D_divisor l (lo, hi) := by
    rw [scale_2D_divisor, listMax_shift hne]
    exact div_pos (by linarith) (by simpa using sub_pos.mpr hlt)
  have hshiftne : scale_2D_shift l ≠ [] := by
    unfold scale_2D_shift
    simpa using hne
  have hdivne : ((scale_2D_shift l).map
      (fun x => x / scale_2D_divisor l (lo, hi))) ≠ [] := by
    simpa using hshiftne
  have hmin2 : listMin ((scale_2D_shift l).map
      (fun x => x / scale_2D_divisor l (lo, hi))) = 0 := by
    rw [listMin_map (fun a b => (min_div_div_right (le_of_lt hdpos) a b).symm) _
      hshiftne, listMin_shift hne, zero_div]
  have hmax2 : listMax ((scale_2D_shift l).map
      (fun x => x / scale_2D_divisor l (lo, hi))) = hi - lo := by
    rw [listMax_map (fun a b => (max_div_div_right (le_of_lt hdpos) a b).symm) _
      hshiftne, listMax_shift hne, scale_2D_divisor, listMax_shift hne]
    have hsub : listMax l - listMin l ≠ 0 := by linarith
    have hsub2 : hi - lo ≠ 0 := ne_of_gt (sub_pos.mpr hlt)
    show (listMax l - listMin l) / ((listMax l - listMin l) / (hi - lo))
      = hi - lo
    rw [div_div_eq_mul_div, mul_comm, mul_div_assoc, div_self hsub, mul_one]
  constructor
  · rw [scale_2D_flat, listMin_map (fun a b => (min_add_add_right a b _).symm) _
      hdivne, hmin2, zero_add]
  · rw [scale_2D_flat, listMax_map (fun a b => (max_add_add_right a b _).symm) _
      hdivne, hmax2]
    ring

theorem scale_2D_flatten {data : Mat} {r c : ℕ} (h : wf data r c)
    (hr : 0 < r) (rg : ℝ × ℝ) :
    (scale_2D data rg).flatten = scale_2D_flat data.flatten rg := by
  rcases h with ⟨hlen, hrows⟩
  have hhead : (data.headD []).length = c := by
    cases data with
    | nil => simp at hlen; omega
    | cons row rest => exact hrows row (List.mem_cons_self _ _)
  rw [scale_2D, hlen, hhead]
  exact flatten_unflatten
    (by rw [scale_2D_flat_length, flatten_length_of_rows hrows, hlen])

theorem unflatten_flatten : ∀ {m : Mat} {c : ℕ},
    (∀ row ∈ m, row.length = c) → unflatten m.length c m.flatten = m
  | [], c, _ => by simp [unflatten]
  | row :: rest, c, h => by
    have hrow : row.length = c := h row (List.mem_cons_self _ _)
    have hrest : ∀ r ∈ rest, r.length = c :=
      fun r hr => h r (List.mem_cons_of_mem _ hr)
    have ih := unflatten_flatten hrest
    simp only [List.length_cons, List.flatten_cons, unflatten,
      List.range_succ_eq_map, List.map_cons, List.map_map]
    congr 1
    · rw [Nat.zero_mul, List.drop_zero, List.take_left' hrow]
    · have hmap : ∀ i ∈ List.range rest.length,
          ((fun i => ((row ++ rest.flatten).drop (i * c)).take c) ∘ Nat.succ) i
            = (rest.flatten.drop (i * c)).take c := by
        intro i _
        simp only [Function.comp]
        have hidx : Nat.succ i * c = row.length + i * c := by
          rw [hrow, Nat.succ_mul, Nat.add_comm]
        rw [hidx, List.drop_append]
      rw [List.map_congr_left hmap]
      exact ih

/-- Complete behaviour of `scale_2D` on a well-formed non-constant field:
shape preserved, minimum and maximum hit the target range ends exactly, and
all values lie inside the range. -/
theorem scale_2D_spec {data : Mat} {r c : ℕ} {lo hi : ℝ} (h : wf data r c)
    (hr : 0 < r)
    (hnc : ∃ x ∈ data.flatten, ∃ y ∈ data.flatten, x ≠ y) (hlt : lo < hi) :
    wf (scale_2D data (lo, hi)) r c ∧
    listMin (scale_2D data (lo, hi)).flatten = lo ∧
    listMax (scale_2D data (lo, hi)).flatten = hi ∧
    ∀ x ∈ (scale_2D data (lo, hi)).flatten, lo ≤ x ∧ x ≤ hi := by
  have hfl := scale_2D_flatten h hr (lo, hi)
  have hmm := scale_2D_flat_minmax hnc hlt
  refine ⟨wf_scale_2D h hr _, ?_, ?_, ?_⟩
  · rw [hfl]; exact hmm.1
  · rw [hfl]; exact hmm.2
  · intro x hx
    rw [hfl] at hx
    constructor
    · calc lo = listMin (scale_2D_flat data.flatten (lo, hi)) := hmm.1.symm
      _ ≤ x := listMin_le_of_mem hx
    · calc x ≤ listMax (scale_2D_flat data.flatten (lo, hi)) :=
        le_listMax_of_mem hx
      _ = hi := hmm.2

/-- C5: for every non-constant well-formed 2D field and every range
`(lo, hi)` with `lo < hi`, `scale_2D` returns a field of the same shape whose
minimum is exactly `lo`, whose maximum is exactly `hi`, and all of whose
values lie in `[lo, hi]` (in particular with the range `(0, 255)`). -/
theorem C5_scale_2D_range {data : Mat} {r c : ℕ} {lo hi : ℝ} (h : wf data r c)
    (hr : 0 < r)
    (hnc : ∃ x ∈ data.flatten, ∃ y ∈ data.flatten, x ≠ y) (hlt : lo < hi) :
    wf (scale_2D data (lo, hi)) r c ∧
    listMin (scale_2D data (lo, hi)).flatten = lo ∧
    listMax (scale_2D data (lo, hi)).flatten = hi ∧
    ∀ x ∈ (scale_2D data (lo, hi)).flatten, lo ≤ x ∧ x ≤ hi :=
  scale_2D_spec h hr hnc hlt

/-- C5 witness: the non-constant field `[[0, 2]]` scaled to `(0, 255)`. -/
theorem C5_scale_2D_range_witness :
    (wf [[(0 : ℝ), 2]] 1 2 ∧ 0 < 1 ∧
      (∃ x ∈ ([[(0 : ℝ), 2]] : Mat).flatten,
        ∃ y ∈ ([[(0 : ℝ), 2]] : Mat).flatten, x ≠ y) ∧ (0 : ℝ) < 255) ∧
    (wf (scale_2D [[(0 : ℝ), 2]] (0, 255)) 1 2 ∧
     listMin (scale_2D [[(0 : ℝ), 2]] (0, 255)).flatten = 0 ∧
     listMax (scale_2D [[(0 : ℝ), 2]] (0, 255)).flatten = 255 ∧
     ∀ x ∈ (scale_2D [[(0 : ℝ), 2]] (0, 255)).flatten, 0 ≤ x ∧ x ≤ 255) := by
  have h1 : wf [[(0 : ℝ), 2]] 1 2 := by
    constructor
    · rfl
    · intro row hrow
      rcases List.mem_singleton.mp hrow with rfl
      rfl
  have h2 : ∃ x ∈ ([[(0 : ℝ), 2]] : Mat).flatten,
      ∃ y ∈ ([[(0 : ℝ), 2]] : Mat).flatten, x ≠ y :=
    ⟨0, by simp, 2, by simp, by norm_num⟩
  exact ⟨⟨h1, Nat.one_pos, h2, by norm_num⟩,
    C5_scale_2D_range h1 Nat.one_pos h2 (by norm_num)⟩

/-- C8: `scale_2D` is idempotent on non-constant fields: reapplying it with
the same target range to the already-scaled field changes nothing, exactly
(the already-scaled field has minimum `lo` and maximum `hi`, so the affine
map of the second application is the identity). -/
theorem C8_scale_2D_idempotent {data : Mat} {r c : ℕ} {lo hi : ℝ}
    (h : wf data r c) (hr : 0 < r)
    (hnc : ∃ x ∈ data.flatten, ∃ y ∈ data.flatten, x ≠ y) (hlt : lo < hi) :
    scale_2D (scale_2D data (lo, hi)) (lo, hi) = scale_2D data (lo, hi) := by
  obtain ⟨hwf1, hmin1, hmax1, _⟩ := scale_2D_spec h hr hnc hlt
  set out1 := scale_2D data (lo, hi) with hout1
  have hc : 0 < c := by
    rcases hnc with ⟨x, hx, _⟩
    rcases List.mem_flatten.mp hx with ⟨row, hrow, hxrow⟩
    have := h.2 row hrow
    have := List.length_pos.mpr (List.ne_nil_of_mem hxrow)
    omega
  have hne : out1.flatten ≠ [] := by
    intro hnil
    have := flatten_length_of_rows hwf1.2
    rw [hnil, hwf1.1] at this
    simp at this
    omega
  have hhl : hi - lo ≠ 0 := ne_of_gt (sub_pos.mpr hlt)
  -- the second application's three steps are pointwise the identity
  have hflat2 : scale_2D_flat out1.flatten (lo, hi) = out1.flatten := by
    have hdiv : scale_2D_divisor out1.flatten (lo, hi) = 1 := by
      rw [scale_2D_divisor, listMax_shift hne, hmin1, hmax1]
      exact div_self hhl
    calc scale_2D_flat out1.flatten (lo, hi)
        = out1.flatten.map (fun x => ((x + -lo) / 1) + lo) := by
          rw [scale_2D_flat, hdiv, scale_2D_shift, hmin1, List.map_map,
            List.map_map]
          rfl
      _ = out1.flatten.map id := List.map_congr_left (fun x _ => by simp)
      _ = out1.flatten := List.map_id _
  have hhead : (out1.headD []).length = c := by
    cases hh : out1 with
    | nil => rw [hh] at hwf1; rcases hwf1 with ⟨h1, _⟩; simp at h1; omega
    | cons row rest =>
      exact hwf1.2 row (hh ▸ List.mem_cons_self _ _)
  rw [scale_2D, hflat2, hhead, hwf1.1, ← hwf1.1]
  exact unflatten_flatten hwf1.2

/-- C8 witness: scaling `[[0, 2]]` to `(0, 255)` twice equals scaling once. -/
theorem C8_scale_2D_idempotent_witness :
    (wf [[(0 : ℝ), 2]] 1 2 ∧ 0 < 1 ∧
      (∃ x ∈ ([[(0 : ℝ), 2]] : Mat).flatten,
        ∃ y ∈ ([[(0 : ℝ), 2]] : Mat).flatten, x ≠ y) ∧ (0 : ℝ) < 255) ∧
    scale_2D (scale_2D [[(0 : ℝ), 2]] (0, 255)) (0, 255)
      = scale_2D [[(0 : ℝ), 2]] (0, 255) := by
  have h1 : wf [[(0 : ℝ), 2]] 1 2 := by
    constructor
    · rfl
    · intro row hrow
      rcases List.mem_singleton.mp hrow with rfl
      rfl
  have h2 : ∃ x ∈ ([[(0 : ℝ), 2]] : Mat).flatten,
      ∃ y ∈ ([[(0 : ℝ), 2]] : Mat).flatten, x ≠ y :=
    ⟨0, by simp, 2, by simp, by norm_num⟩
  exact ⟨⟨h1, Nat.one_pos, h2, by norm_num⟩,
    C8_scale_2D_idempotent h1 Nat.one_pos h2 (by norm_num)⟩

/-- C9: on a constant-valued field the divisor of `scale_2D`'s in-place
division (`np.max(data) / (hi - lo)` after the shift) is exactly zero, and
the division is performed with no guard: in the real-valued model every
output entry collapses to `lo` via the unguarded `x / 0`; in IEEE floats the
same unguarded division produces NaN/Inf rather than a raised error or a
clamped value. -/
theorem C9_scale_2D_constant_divides_by_zero {data : Mat} {v : ℝ}
    (hne : data.flatten ≠ []) (hconst : ∀ x ∈ data.flatten, x = v)
    (rg : ℝ × ℝ) :
    scale_2D_divisor data.flatten rg = 0 ∧
    ∀ x ∈ (scale_2D data rg).flatten, x = rg.1 := by
  have hminv : listMin data.flatten = v := hconst _ (listMin_mem hne)
  have hshift : ∀ x ∈ scale_2D_shift data.flatten, x = 0 := by
    intro x hx
    rcases List.mem_map.mp hx with ⟨y, hy, rfl⟩
    rw [hconst y hy, hminv]
    ring
  have hshiftne : scale_2D_shift data.flatten ≠ [] := by
    unfold scale_2D_shift
    simpa using hne
  have hdiv : scale_2D_divisor data.flatten rg = 0 := by
    rw [scale_2D_divisor, hshift _ (listMax_mem hshiftne), zero_div]
  refine ⟨hdiv, ?_⟩
  intro x hx
  have hx' : x ∈ scale_2D_flat data.flatten rg := by
    rcases List.mem_flatten.mp hx with ⟨row, hrow, hxrow⟩
    simp only [scale_2D, unflatten, List.mem_map, List.mem_range] at hrow
    rcases hrow with ⟨i, _, rfl⟩
    exact List.mem_of_mem_drop (List.mem_of_mem_take hxrow)
  simp only [scale_2D_flat, List.mem_map] at hx'
  rcases hx' with ⟨y, ⟨z, hz, rfl⟩, rfl⟩
  rw [hshift z hz, hdiv]
  simp

/-- C9 witness: the constant field `[[1, 1]]`. -/
theorem C9_scale_2D_constant_divides_by_zero_witness :
    (([[(1 : ℝ), 1]] : Mat).flatten ≠ [] ∧
      ∀ x ∈ ([[(1 : ℝ), 1]] : Mat).flatten, x = 1) ∧
    scale_2D_divisor ([[(1 : ℝ), 1]] : Mat).flatten (0, 255) = 0 ∧
    ∀ x ∈ (scale_2D [[(1 : ℝ), 1]] (0, 255)).flatten, x = (0, (255 : ℝ)).1 := by
  have h1 : ([[(1 : ℝ), 1]] : Mat).flatten ≠ [] := by simp
  have h2 : ∀ x ∈ ([[(1 : ℝ), 1]] : Mat).flatten, x = 1 := by
    intro x hx
    simpa using hx
  exact ⟨⟨h1, h2⟩, C9_scale_2D_constant_divides_by_zero h1 h2 (0, 255)⟩

/-- C10: `scale_2D` never mutates its input array.  In the heap model the
flatten step allocates a fresh buffer at a new reference, all in-place
arithmetic is applied to that buffer only, and the returned reference is the
new one: the input reference and every other reference keep their contents,
and the result buffer holds exactly the three-step pipeline value. -/
theorem set_append_len {α : Type} (l : List α) (x y : α) :
    (l ++ [x]).set l.length y = l ++ [y] := by
  rw [List.set_append_right _ _ (le_refl _)]
  simp

theorem C10_scale_2D_input_unchanged {heap : List (List ℝ)} {r : ℕ}
    (hr : r < heap.length) (rg : ℝ × ℝ) :
    (scale_2D_heap heap r rg).2 ≠ r ∧
    (scale_2D_heap heap r rg).1.getD r [] = heap.getD r [] ∧
    (∀ k, k ≠ heap.length →
      (scale_2D_heap heap r rg).1.getD k [] = heap.getD k []) ∧
    (scale_2D_heap heap r rg).1.getD (scale_2D_heap heap r rg).2 []
      = scale_2D_flat (heap.getD r []) rg := by
  have hsnd : (scale_2D_heap heap r rg).2 = heap.length := rfl
  have hchain : (scale_2D_heap heap r rg).1
      = heap ++ [scale_2D_flat (heap.getD r []) rg] := by
    simp only [scale_2D_heap]
    rw [getD_append_len, set_append_len, getD_append_len, set_append_len,
      getD_append_len, set_append_len]
    rfl
  refine ⟨?_, ?_, ?_, ?_⟩
  · rw [hsnd]; omega
  · rw [hchain]; exact getD_append_lt hr _ _
  · intro k hk
    rw [hchain]
    rcases lt_or_ge k heap.length with hlt | hge
    · exact getD_append_lt hlt _ _
    · have h1 : (heap ++ [scale_2D_flat (heap.getD r []) rg]).getD k []
          = [] := by
        apply List.getD_eq_default
        simp only [List.length_append, List.length_singleton]
        omega
      have h2 : heap.getD k [] = ([] : List ℝ) :=
        List.getD_eq_default _ _ (by omega)
      rw [h1, h2]
  · rw [hchain, hsnd]
    exact getD_append_len _ _ _

/-- C10 witness: a one-buffer heap holding `[1, 2]`. -/
theorem C10_scale_2D_input_unchanged_witness :
    0 < ([[(1 : ℝ), 2]] : List (List ℝ)).length ∧
    (scale_2D_heap [[(1 : ℝ), 2]] 0 (0, 255)).2 ≠ 0 ∧
    (scale_2D_heap [[(1 : ℝ), 2]] 0 (0, 255)).1.getD 0 [] = [1, 2] ∧
    (∀ k, k ≠ 1 →
      (scale_2D_heap [[(1 : ℝ), 2]] 0 (0, 255)).1.getD k []
        = ([[(1 : ℝ), 2]] : List (List ℝ)).getD k []) ∧
    (scale_2D_heap [[(1 : ℝ), 2]] 0 (0, 255)).1.getD
        (scale_2D_heap [[(1 : ℝ), 2]] 0 (0, 255)).2 []
      = scale_2D_flat [1, 2] (0, 255) := by
  have h := @C10_scale_2D_input_unchanged [[(1 : ℝ), 2]] 0 (by simp) (0, 255)
  exact ⟨by simp, h.1, h.2.1, h.2.2.1, h.2.2.2⟩

/-- C1 counterexample: for the all-ones 2×2 input composed onto a 4×4 zero
background with center `(1,1)` and radius `1`, the pixel at `(1,1)` is
strictly inside the disk (distance 0 < 1) but the returned frame holds `2`
there, not the input pixel `1`: the claim "interior pixels equal the input
pixel" is false on the code. -/
theorem C1_counterexample :
    entry (create_composition [[1, 1], [1, 1]]
        [[0, 0, 0, 0], [0, 0, 0, 0], [0, 0, 0, 0], [0, 0, 0, 0]]
        0 0 (some (1, 1)) (some 1)) 1 1 = 2 ∧
    entry [[(1 : ℝ), 1], [1, 1]] 1 1 = 1 ∧ (2 : ℝ) ≠ 1 := by
  have hd : dist_from_center ((1 : ℤ), (1 : ℤ)) 1 1 < 1 := by
    unfold dist_from_center
    norm_num
  have h2 := @interior_pixel_doubled [[1, 1], [1, 1]]
    [[0, 0, 0, 0], [0, 0, 0, 0], [0, 0, 0, 0], [0, 0, 0, 0]]
    0 0 ((1 : ℤ), (1 : ℤ)) 1 1 1
    (by simp) (by simp) (by simp) (by simp) (by simp) hd
  refine ⟨?_, by simp [entry], by norm_num⟩
  have hin : entry [[(1 : ℝ), 1], [1, 1]] 1 1 = 1 := by simp [entry]
  rw [hin] at h2
  simpa using h2

/-- C1 (amended): with a radius `r > 0`, the offset window inside the
background, and at least one grid cell strictly outside the disk (so
`out_mask_full` is not constant and the rescale divides by a strictly
positive maximum — the domain on which the real-valued model of the division
agrees with IEEE floats; with the whole grid inside the disk the Python code
instead divides `0.0/0.0` and the frame is NaN), every pixel of the returned
frame strictly inside the disk equals twice the corresponding input pixel.
The fade weight is zero there, so the background contributes nothing, but
`out_image` is the raw input data (`np.ma.array(...).data` does not zero
masked positions), so the input is added once by `background_fade` and once
more by `circle_image`. -/
theorem C1_interior_pixels_doubled {input bg : Mat} {x_off y_off : ℕ}
    {c : ℤ × ℤ} {r : ℝ} {i j : ℕ}
    (hsq : (input.headD []).length = input.length)
    (hr : 0 < r)
    (hi : i < input.length) (hj : j < input.length)
    (hrow : y_off + input.length ≤ bg.length)
    (hcol : x_off + input.length ≤ (bg.headD []).length)
    (hd : dist_from_center c i j < r)
    (hout : ∃ i0, ∃ j0, i0 < input.length ∧ j0 < input.length ∧
      r < dist_from_center c i0 j0) :
    entry (create_composition input bg x_off y_off (some c) (some r))
        (y_off + i) (x_off + j) = 2 * entry input i j :=
  interior_pixel_doubled hsq hi hj hrow hcol hd

/-- C1 witness: a 2×2 input of twos onto a 4×4 background of sevens with
offset `(1,1)`, center `(0,0)` and radius `1`: the pixel `(0,0)` is strictly
inside the disk (distance 0), the corner `(1,1)` is strictly outside
(distance `sqrt 2 > 1`), and the frame pixel holds twice the input pixel. -/
theorem C1_interior_pixels_doubled_witness :
    ((([[(2 : ℝ), 2], [2, 2]] : Mat).headD []).length
        = ([[(2 : ℝ), 2], [2, 2]] : Mat).length ∧
      (0 : ℝ) < 1 ∧
      1 + ([[(2 : ℝ), 2], [2, 2]] : Mat).length
        ≤ ([[7, 7, 7, 7], [7, 7, 7, 7], [7, 7, 7, 7], [7, 7, 7, 7]] : Mat).length ∧
      dist_from_center ((0 : ℤ), (0 : ℤ)) 0 0 < 1 ∧
      (∃ i0, ∃ j0, i0 < ([[(2 : ℝ), 2], [2, 2]] : Mat).length ∧
        j0 < ([[(2 : ℝ), 2], [2, 2]] : Mat).length ∧
        (1 : ℝ) < dist_from_center ((0 : ℤ), (0 : ℤ)) i0 j0)) ∧
    entry (create_composition [[2, 2], [2, 2]]
        [[7, 7, 7, 7], [7, 7, 7, 7], [7, 7, 7, 7], [7, 7, 7, 7]]
        1 1 (some (0, 0)) (some 1)) (1 + 0) (1 + 0)
      = 2 * entry [[(2 : ℝ), 2], [2, 2]] 0 0 := by
  have hd : dist_from_center ((0 : ℤ), (0 : ℤ)) 0 0 < 1 := by
    unfold dist_from_center
    norm_num
  have hsqrt2 : (1 : ℝ) < Real.sqrt 2 := by
    nlinarith [Real.sq_sqrt (show (0 : ℝ) ≤ 2 from by norm_num),
      Real.sqrt_nonneg 2]
  have hcorner : (1 : ℝ) < dist_from_center ((0 : ℤ), (0 : ℤ)) 1 1 := by
    have heq : dist_from_center ((0 : ℤ), (0 : ℤ)) 1 1 = Real.sqrt 2 := by
      unfold dist_from_center
      norm_num
    rw [heq]
    exact hsqrt2
  have hout : ∃ i0, ∃ j0, i0 < ([[(2 : ℝ), 2], [2, 2]] : Mat).length ∧
      j0 < ([[(2 : ℝ), 2], [2, 2]] : Mat).length ∧
      (1 : ℝ) < dist_from_center ((0 : ℤ), (0 : ℤ)) i0 j0 :=
    ⟨1, 1, by simp, by simp, hcorner⟩
  exact ⟨⟨by simp, by norm_num, by simp, hd, hout⟩,
    C1_interior_pixels_doubled (by simp) (by norm_num) (by simp) (by simp)
      (by simp) (by simp) hd hout⟩

/-- C6: the `radius` argument semantics of `create_composition`:
`radius=None` triggers the computed default
`min(center[0], center[1], w-center[0], h-center[1])`; `radius=0` — which is
also the declared default of the parameter — forces a literal zero-radius
disk whose mask holds only at the exact center, and does not trigger the
auto default (for the 2×2 default center the two differ: 1 versus 0); and
the `create_new_dataset` call site passes `radius=None`, so it gets the
computed default. -/
theorem C6_radius_none_vs_zero :
    (∀ w h c, effRadius w h c none
        = ((min (min c.1 c.2) (min ((w : ℤ) - c.1) ((h : ℤ) - c.2)) : ℤ) : ℝ)) ∧
    (∀ w h c (i j : ℕ), dist_from_center c i j ≤ effRadius w h c (some 0) ↔
        ((j : ℤ) = c.1 ∧ (i : ℤ) = c.2)) ∧
    create_composition_radius_default = some 0 ∧
    (∀ image noise_bg off, cnd_compose image noise_bg off
        = create_composition image noise_bg off.1 off.2 none none) ∧
    effRadius 2 2 (effCenter 2 2 none) none = 1 ∧
    effRadius 2 2 (effCenter 2 2 none) (some 0) = 0 := by
  refine ⟨fun w h c => rfl, ?_, rfl, fun _ _ _ => rfl, ?_, rfl⟩
  · intro w h c i j
    show dist_from_center c i j ≤ 0 ↔ _
    unfold dist_from_center
    constructor
    · intro hle
      have h0 : ((((j : ℤ) - c.1 : ℤ) : ℝ)) ^ 2
          + ((((i : ℤ) - c.2 : ℤ) : ℝ)) ^ 2 ≤ 0 :=
        Real.sqrt_eq_zero'.mp (le_antisymm hle (Real.sqrt_nonneg _))
      have ha : ((((j : ℤ) - c.1 : ℤ) : ℝ)) = 0 := by
        nlinarith [sq_nonneg ((((j : ℤ) - c.1 : ℤ) : ℝ)),
          sq_nonneg ((((i : ℤ) - c.2 : ℤ) : ℝ))]
      have hb : ((((i : ℤ) - c.2 : ℤ) : ℝ)) = 0 := by
        nlinarith [sq_nonneg ((((j : ℤ) - c.1 : ℤ) : ℝ)),
          sq_nonneg ((((i : ℤ) - c.2 : ℤ) : ℝ))]
      exact ⟨sub_eq_zero.mp (Int.cast_eq_zero.mp ha),
        sub_eq_zero.mp (Int.cast_eq_zero.mp hb)⟩
    · rintro ⟨h1, h2⟩
      rw [show ((j : ℤ) - c.1) = 0 from sub_eq_zero.mpr h1,
        show ((i : ℤ) - c.2) = 0 from sub_eq_zero.mpr h2]
      norm_num
  · norm_num [effRadius, effCenter]

/-- C7: `create_composition` writes the composed patch into the window
`background_image[y_offset:y_offset+w, x_offset:x_offset+h]`, leaves every
entry of the background outside that window unchanged, and at the heap level
mutates the background reference in place and returns that very reference
(not a copy): every other reference keeps its contents. -/
theorem C7_composition_in_place {input bg : Mat} {R C x_off y_off : ℕ}
    {copt : Option (ℤ × ℤ)} {ropt : Option ℝ}
    (hbg : wf bg R C)
    (hsq : (input.headD []).length = input.length)
    (hrow : y_off + input.length ≤ R)
    (hcol : x_off + input.length ≤ C) :
    (∀ rr cc, rr < R → cc < C →
      ¬(y_off ≤ rr ∧ rr < y_off + input.length ∧
        x_off ≤ cc ∧ cc < x_off + input.length) →
      entry (create_composition input bg x_off y_off copt ropt) rr cc
        = entry bg rr cc) ∧
    (∀ i j, i < input.length → j < input.length →
      entry (create_composition input bg x_off y_off copt ropt)
          (y_off + i) (x_off + j)
        = entry (composedPatch input bg x_off y_off copt ropt) i j) ∧
    (∀ (heap : List Mat) (inputRef bgRef : ℕ),
      (create_composition_heap heap inputRef bgRef x_off y_off copt ropt).2
        = bgRef ∧
      (create_composition_heap heap inputRef bgRef x_off y_off copt
          ropt).1.getD bgRef []
        = create_composition (heap.getD inputRef []) (heap.getD bgRef [])
            x_off y_off copt ropt ∨ heap.length ≤ bgRef) ∧
    (∀ (heap : List Mat) (inputRef bgRef k : ℕ), k ≠ bgRef →
      (create_composition_heap heap inputRef bgRef x_off y_off copt
          ropt).1.getD k [] = heap.getD k []) := by
  have hlen : bg.length = R := hbg.1
  have hhead : (bg.headD []).length = C ∨ R = 0 := by
    cases hb : bg with
    | nil => right; rw [← hlen, hb]; rfl
    | cons row rest => left; exact hbg.2 row (hb ▸ List.mem_cons_self _ _)
  refine ⟨?_, ?_, ?_, ?_⟩
  · intro rr cc hrr hcc hout
    rcases hhead with hh | hzero
    · exact create_composition_outside (by omega) (by omega)
        (by rw [hsq]; exact hout)
    · omega
  · intro i j hi hj
    rcases hhead with hh | hzero
    · exact create_composition_window hi (by omega) (by omega) (by omega)
    · have : input.length = 0 := by omega
      omega
  · intro heap inputRef bgRef
    rcases lt_or_ge bgRef heap.length with hlt | hge
    · left
      exact ⟨rfl, getD_set_self hlt _ _⟩
    · right
      exact hge
  · intro heap inputRef bgRef k hk
    exact getD_set_ne hk _ _

/-- C7 witness: a 1×1 input written into a 2×2 background at offset `(0,0)`. -/
theorem C7_composition_in_place_witness :
    (wf [[(5 : ℝ), 5], [5, 5]] 2 2 ∧
      (([[(3 : ℝ)]] : Mat).headD []).length = ([[(3 : ℝ)]] : Mat).length ∧
      0 + ([[(3 : ℝ)]] : Mat).length ≤ 2) ∧
    ((∀ rr cc, rr < 2 → cc < 2 →
      ¬(0 ≤ rr ∧ rr < 0 + ([[(3 : ℝ)]] : Mat).length ∧
        0 ≤ cc ∧ cc < 0 + ([[(3 : ℝ)]] : Mat).length) →
      entry (create_composition [[(3 : ℝ)]] [[5, 5], [5, 5]] 0 0 none none)
          rr cc = entry [[(5 : ℝ), 5], [5, 5]] rr cc) ∧
    (∀ i j, i < ([[(3 : ℝ)]] : Mat).length → j < ([[(3 : ℝ)]] : Mat).length →
      entry (create_composition [[(3 : ℝ)]] [[5, 5], [5, 5]] 0 0 none none)
          (0 + i) (0 + j)
        = entry (composedPatch [[(3 : ℝ)]] [[5, 5], [5, 5]] 0 0 none none)
            i j) ∧
    (∀ (heap : List Mat) (inputRef bgRef : ℕ),
      (create_composition_heap heap inputRef bgRef 0 0 none none).2
        = bgRef ∧
      (create_composition_heap heap inputRef bgRef 0 0 none
          none).1.getD bgRef []
        = create_composition (heap.getD inputRef []) (heap.getD bgRef [])
            0 0 none none ∨ heap.length ≤ bgRef) ∧
    (∀ (heap : List Mat) (inputRef bgRef k : ℕ), k ≠ bgRef →
      (create_composition_heap heap inputRef bgRef 0 0 none
          none).1.getD k [] = heap.getD k [])) := by
  have hbg : wf [[(5 : ℝ), 5], [5, 5]] 2 2 := by
    constructor
    · rfl
    · intro row hrow
      rcases List.mem_cons.mp hrow with rfl | hrow2
      · rfl
      · rcases List.mem_singleton.mp hrow2 with rfl
        rfl
  exact ⟨⟨hbg, rfl, by simp⟩,
    C7_composition_in_place hbg rfl (by simp) (by simp)⟩

theorem except_bind_ok {ε α β : Type} (a : α) (f : α → Except ε β) :
    (Except.ok a : Except ε α) >>= f = f a := rfl

theorem except_bind_error {ε α β : Type} (e : ε) (f : α → Except ε β) :
    (Except.error e : Except ε α) >>= f = Except.error e := rfl

/-- C2 is false on the code: the loop body of `create_new_dataset` calls
`rotate_image(image, rot=degree)`, but `rotate_image`'s parameters are
`(image, angle)`, so Python raises `TypeError` as soon as a row reaches the
rotation step — the call with `rotate=True` never completes.  Moreover, even
with a correct keyword, `rotate_image` passes the angle through unchanged to
the rotation primitive: the rotation is by `degree` degrees, not
`degree*90`. -/
theorem C2_rotate_type_error (rotFn : Mat → ℝ → Mat) (randAngles : ℕ → ℝ)
    (phis : ℕ → Mat) (picks : ℕ → ℕ) (degree : Option ℤ) :
    create_new_dataset rotFn randAngles phis picks [[0]] [(0, 0)] true degree
      = Except.error
        "TypeError: rotate_image() got an unexpected keyword argument rot" ∧
    (∀ (rotFn2 : Mat → ℝ → Mat) (ra : ℝ) (image : Mat) (a : ℝ),
      rotate_image rotFn2 ra image (some a) = rotFn2 image a) :=
  ⟨rfl, fun _ _ _ _ => rfl⟩

/-- C3 is false on the code at its own docstring example `dim_array=(10,5)`:
`u` is reshaped to `(10,5)` and transposed to shape `(5,10)` while `v` keeps
shape `(10,5)`, so the elementwise sum `u**2 + v**2` is a numpy broadcast
error for any non-square `dim_array`, instead of a returned 10×5 field. -/
theorem C3_nonsquare_dims_error (β : ℝ) (φ : Mat) :
    create_2D_noise (10, 5) β φ
      = Except.error "ValueError: operands could not be broadcast together" :=
  rfl

theorem wf_headD_length {m : Mat} {r c : ℕ} (h : wf m r c) (hr : 0 < r) :
    (m.headD []).length = c := by
  cases m with
  | nil =>
    have := h.1
    simp at this
    omega
  | cons row rest => exact h.2 row (List.mem_cons_self _ _)

theorem flatten_replicate_length {α : Type} (k : ℕ) (l : List α) :
    (List.replicate k l).flatten.length = k * l.length := by
  induction k with
  | zero => simp
  | succ n ih =>
    simp only [List.replicate_succ, List.flatten_cons, List.length_append, ih,
      Nat.succ_mul]
    omega

theorem freqAxis_length {d : ℕ} (hd : 0 < d) : (freqAxis d).length = d := by
  unfold freqAxis
  rw [List.length_append, List.length_map, List.length_map,
    List.length_range, List.length_range]
  omega

theorem reshapeE_ok {r c : ℕ} {l : List ℝ} (h : l.length = r * c) :
    reshapeE r c l = Except.ok (unflatten r c l) := by
  unfold reshapeE
  rw [if_pos h]

theorem wf_mapMat {m : Mat} {r c : ℕ} (h : wf m r c) (f : ℝ → ℝ) :
    wf (mapMat f m) r c := by
  constructor
  · simp [mapMat, h.1]
  · intro row hrow
    simp only [mapMat, List.mem_map] at hrow
    rcases hrow with ⟨row0, hrow0, rfl⟩
    simp [h.2 row0 hrow0]

theorem wf_transposeMat {m : Mat} {r c : ℕ} (h : wf m r c) (hr : 0 < r) :
    wf (transposeMat m) c r := by
  have h1 := wf_headD_length h hr
  unfold transposeMat
  rw [h1, h.1]
  exact wf_build c r _

theorem broadcastAdd_ok {a b : Mat} {r c : ℕ} (ha : a.length = r)
    (hah : (a.headD []).length = c) (hb : b.length = r)
    (hbh : (b.headD []).length = c) :
    ∃ s, broadcastAdd a b = Except.ok s ∧ wf s r c := by
  simp only [broadcastAdd]
  rw [ha, hah, hb, hbh, if_pos ⟨Or.inl rfl, Or.inl rfl⟩]
  refine ⟨_, rfl, ?_⟩
  rw [max_self, max_self]
  exact wf_build r c _

theorem ifft2_shape (x : List (List ℂ)) :
    (ifft2 x).length = x.length ∧
    ∀ row ∈ ifft2 x, row.length = (x.headD []).length := by
  constructor
  · simp [ifft2]
  · intro row hrow
    simp only [ifft2, List.mem_map] at hrow
    rcases hrow with ⟨i, _, rfl⟩
    simp

theorem zipWith_rows_shape {f : ℝ → ℝ → ℂ} {a b : Mat} {r c : ℕ}
    (ha : wf a r c) (hb : wf b r c) (hr : 0 < r) :
    (List.zipWith (fun ra rb => List.zipWith f ra rb) a b).length = r ∧
    ((List.zipWith (fun ra rb => List.zipWith f ra rb) a b).headD
      []).length = c := by
  constructor
  · rw [List.length_zipWith, ha.1, hb.1, min_self]
  · cases a with
    | nil =>
      exfalso
      have := ha.1
      simp at this
      omega
    | cons ra arest =>
      cases b with
      | nil =>
        exfalso
        have := hb.1
        simp at this
        omega
      | cons rb brest =>
        simp only [List.zipWith_cons_cons, List.headD_cons, List.length_zipWith]
        rw [ha.2 ra (List.mem_cons_self _ _), hb.2 rb (List.mem_cons_self _ _),
          min_self]

/-- On a square `dim_array = (d, d)` with a well-shaped phase draw,
`create_2D_noise` succeeds and returns a `d × d` real field. -/
theorem create_2D_noise_square_ok {d : ℕ} (hd : 0 < d) (β : ℝ) {φ : Mat}
    (hφ : wf φ d d) :
    ∃ N, create_2D_noise (d, d) β φ = Except.ok N ∧ wf N d d := by
  have hlu : ((List.replicate d (freqAxis d)).flatten).length = d * d := by
    rw [flatten_replicate_length, freqAxis_length hd]
  have hwfu0 : wf (unflatten d d ((List.replicate d (freqAxis d)).flatten))
      d d := wf_unflatten hlu
  have hwfu : wf (transposeMat
      (unflatten d d ((List.replicate d (freqAxis d)).flatten))) d d :=
    wf_transposeMat hwfu0 hd
  have hwfA := wf_mapMat hwfu (fun x => x ^ (2 : ℕ))
  have hwfB := wf_mapMat hwfu0 (fun x => x ^ (2 : ℕ))
  obtain ⟨s, hs, hwfs⟩ := broadcastAdd_ok hwfA.1 (wf_headD_length hwfA hd)
    hwfB.1 (wf_headD_length hwfB hd)
  have hwfSf := wf_mapMat hwfs
    (fun x => if x = 0 ∧ β / 2 < 0 then 0 else x ^ (β / 2))
  obtain ⟨hslen, hshead⟩ := zipWith_rows_shape
    (f := fun sv pv => ((Real.sqrt sv : ℝ) : ℂ) *
      (((Real.cos (2 * Real.pi * pv) : ℝ) : ℂ) +
        Complex.I * ((Real.sin (2 * Real.pi * pv) : ℝ) : ℂ)))
    hwfSf hφ hd
  refine ⟨(ifft2 (List.zipWith (fun rs rp => List.zipWith
        (fun sv pv => ((Real.sqrt sv : ℝ) : ℂ) *
          (((Real.cos (2 * Real.pi * pv) : ℝ) : ℂ) +
            Complex.I * ((Real.sin (2 * Real.pi * pv) : ℝ) : ℂ))) rs rp)
        (mapMat (fun x => if x = 0 ∧ β / 2 < 0 then 0 else x ^ (β / 2)) s)
        φ)).map (fun row => row.map Complex.re), ?_, ?_⟩
  · simp only [create_2D_noise]
    rw [reshapeE_ok hlu]
    simp only [except_bind_ok]
    rw [hs]
    simp only [except_bind_ok]
    rfl
  · have hif := ifft2_shape (List.zipWith (fun rs rp => List.zipWith
      (fun sv pv => ((Real.sqrt sv : ℝ) : ℂ) *
        (((Real.cos (2 * Real.pi * pv) : ℝ) : ℂ) +
          Complex.I * ((Real.sin (2 * Real.pi * pv) : ℝ) : ℂ))) rs rp)
      (mapMat (fun x => if x = 0 ∧ β / 2 < 0 then 0 else x ^ (β / 2)) s) φ)
    constructor
    · rw [List.length_map, hif.1, hslen]
    · intro row hrow
      rcases List.mem_map.mp hrow with ⟨row0, hrow0, rfl⟩
      rw [List.length_map, hif.2 row0 hrow0, hshead]

theorem create_composition_wf {input bg : Mat} {R C : ℕ} (hbg : wf bg R C)
    (hR : 0 < R) (x_off y_off : ℕ) (copt : Option (ℤ × ℤ))
    (ropt : Option ℝ) :
    wf (create_composition input bg x_off y_off copt ropt) R C := by
  unfold create_composition
  rw [hbg.1, wf_headD_length hbg hR]
  exact wf_build R C _

theorem cnd_store_error {n : ℕ} {result : Mat}
    (h : result.flatten.length ≠ n * 4) :
    cnd_store n result = Except.error
      "ValueError: could not broadcast flattened frame into output row" := by
  unfold cnd_store
  rw [if_neg h]

theorem cndLoop_single_error {f : ℕ → List ℝ → Except String (List ℝ)}
    {row : List ℝ} {e : String} (h : f 0 row = Except.error e) :
    cndLoop f 0 [row] = Except.error e := by
  unfold cndLoop
  rw [h]
  rfl

/-- C4 is false on the code for any perfect-square row length other than 784:
the noise background is always the default 56×56, so the composed frame
flattens to 3136 entries regardless of the input, and storing it into the
length-`4N` output row raises a broadcast `ValueError`.  Here a dataset of
shape `(1, 4)` (so `N = 4`, a perfect square, with claimed output shape
`(1, 16)`) fails instead of returning. -/
theorem C4_row_length_mismatch (rotFn : Mat → ℝ → Mat) (randAngles : ℕ → ℝ)
    (phis : ℕ → Mat) (picks : ℕ → ℕ) (hphi : ∀ i, wf (phis i) 56 56)
    (hpick : ∀ i, picks i < 1) :
    create_new_dataset rotFn randAngles phis picks [[0, 0, 0, 0]] [(0, 0)]
      false none
      = Except.error
        "ValueError: could not broadcast flattened frame into output row" := by
  obtain ⟨N, hN, hwfN⟩ := create_2D_noise_square_ok (by norm_num) (-1) (hphi 0)
  have hwfbg : wf (scale_2D N (0, 255)) 56 56 :=
    wf_scale_2D hwfN (by norm_num) (0, 255)
  have hrest : cnd_row_rest (phis 0) (picks 0) 4
      (unflatten 2 2 [0, 0, 0, 0]) [(0, 0)]
      = Except.error
        "ValueError: could not broadcast flattened frame into output row" := by
    unfold cnd_row_rest
    rw [hN]
    show cnd_store 4 (cnd_compose (unflatten 2 2 [0, 0, 0, 0])
      (scale_2D N (0, 255)) (([((0 : ℕ), (0 : ℕ))]).getD (picks 0) (0, 0)))
      = _
    apply cnd_store_error
    have hwfres : wf (cnd_compose (unflatten 2 2 [0, 0, 0, 0])
        (scale_2D N (0, 255)) (([((0 : ℕ), (0 : ℕ))]).getD (picks 0) (0, 0)))
        56 56 := by
      unfold cnd_compose
      exact create_composition_wf hwfbg (by norm_num) _ _ none none
    rw [flatten_length_of_rows hwfres.2, hwfres.1]
    norm_num
  have hrow : cnd_row rotFn (randAngles 0) (phis 0) (picks 0) 4 2 [(0, 0)]
      false none [0, 0, 0, 0]
      = Except.error
        "ValueError: could not broadcast flattened frame into output row" := by
    unfold cnd_row
    rw [if_pos (by norm_num), if_neg (by simp)]
    exact hrest
  simp only [create_new_dataset]
  rw [show (([[(0 : ℝ), 0, 0, 0]] : Mat).headD []).length = 4 from rfl,
    show Nat.sqrt 4 = 2 from by norm_num]
  exact cndLoop_single_error hrow

/-- C4 witness: concrete random sources satisfying the hypotheses (constant
zero phase fields of shape 56×56, offset index always 0). -/
theorem C4_row_length_mismatch_witness :
    (∀ i : ℕ, wf ((fun _ : ℕ => List.replicate 56 (List.replicate 56 (0 : ℝ)))
      i) 56 56) ∧
    (∀ i : ℕ, (fun _ : ℕ => (0 : ℕ)) i < 1) ∧
    create_new_dataset (fun m _ => m) (fun _ => 0)
      (fun _ => List.replicate 56 (List.replicate 56 (0 : ℝ)))
      (fun _ => 0) [[0, 0, 0, 0]] [(0, 0)] false none
      = Except.error
        "ValueError: could not broadcast flattened frame into output row" := by
  have h1 : ∀ i : ℕ, wf ((fun _ : ℕ =>
      List.replicate 56 (List.replicate 56 (0 : ℝ))) i) 56 56 := by
    intro i
    constructor
    · simp
    · intro row hrow
      rw [List.eq_of_mem_replicate hrow]
      simp
  have h2 : ∀ i : ℕ, (fun _ : ℕ => (0 : ℕ)) i < 1 := fun _ => Nat.one_pos
  exact ⟨h1, h2, C4_row_length_mismatch _ _ _ _ h1 h2⟩

end Perclearn
